import Mathlib

/-!
Verification of the core of `src/test_project/src/api.js`: the `UserService`
in-memory store, the `ValidationUtils` predicates and the `rateLimiter`
middleware, embedded shallowly in Lean.

Modelling conventions:
* A JS object is an ordered association list `List (String × JsValue)`;
  property assignment updates the first matching key in place and appends a
  new key at the end, exactly as JS object literals and `Map.set` do.
* `new Date().toISOString()` is modelled as the abstract instant `now : Nat`
  supplied by the caller's clock (ISO-8601 UTC strings are order-isomorphic
  to the instants they print).
* `Date.now()` arithmetic in the rate limiter uses `Int`, because
  `now - windowMs` can be negative in JS.
* Methods that throw (`updateUser`, `deleteUser`) return `Except String`;
  `Map.get` misses are `Option.none`.
-/

set_option autoImplicit false

namespace ApiJs

/-- The JS values that occur in user records: numbers (ids, abstract
instants) and strings. `vUndefined` is the value of an absent property. -/
inductive JsValue where
  | vNum (n : Nat)
  | vStr (s : String)
  | vUndefined
deriving DecidableEq, Repr

/-! Association-list maps with JS `Map` / object-property update semantics. -/

namespace JsMap

variable {α : Type} {β : Type} [DecidableEq α]

/-- `m.get(k)` (also property read): value at the first matching key. -/
def get : List (α × β) → α → Option β
  | [], _ => none
  | (k1, v) :: rest, k => if k1 = k then some v else get rest k

/-- `m.set(k, v)` (also property assignment): update in place, else append. -/
def set : List (α × β) → α → β → List (α × β)
  | [], k, v => [(k, v)]
  | (k1, v1) :: rest, k, v =>
      if k1 = k then (k1, v) :: rest else (k1, v1) :: set rest k v

/-- `m.has(k)`. -/
def has (m : List (α × β)) (k : α) : Bool := (get m k).isSome

/-- `m.delete(k)`: remove the first entry with key `k`. -/
def del : List (α × β) → α → List (α × β)
  | [], _ => []
  | (k1, v1) :: rest, k => if k1 = k then rest else (k1, v1) :: del rest k

/-- The keys of the map in entry order. -/
def keys (m : List (α × β)) : List α := m.map Prod.fst

end JsMap

/-- A JS object: ordered properties with (at runtime) unique keys. -/
abbrev Obj := List (String × JsValue)

/-- JS object spread `\x7b ...a, ...b \x7d`: start from `a`, assign each of
`b`'s properties in order. -/
def spread (a b : Obj) : Obj := b.foldl (fun acc p => JsMap.set acc p.1 p.2) a

/-- JS property access `o.k`: `undefined` when the property is absent. -/
def getProp (o : Obj) (k : String) : JsValue := (JsMap.get o k).getD JsValue.vUndefined

/-- The mutable state of `UserService`: `static users = new Map()` and
`static nextId = 1`. -/
structure StoreState where
  users : List (JsValue × Obj)
  nextId : Nat
deriving DecidableEq, Repr

/-- The module-initialization state of `UserService`. -/
def initialState : StoreState := ⟨[], 1⟩

/-- `UserService.getAllUsers()`: `Array.from(this.users.values())`.  The pair
mirrors that the call returns a value and leaves the state as it was. -/
def getAllUsers (st : StoreState) : List Obj × StoreState :=
  (st.users.map Prod.snd, st)

/-- `UserService.createUser(userData)`: builds
`\x7b id: this.nextId++, ...userData, createdAt: now, updatedAt: now \x7d`
and stores it under `user.id`.  Both `new Date().toISOString()` reads are the
call's instant `now`. -/
def createUser (userData : Obj) (now : Nat) (st : StoreState) : Obj × StoreState :=
  let user :=
    JsMap.set
      (JsMap.set (spread [("id", JsValue.vNum st.nextId)] userData)
        "createdAt" (JsValue.vNum now))
      "updatedAt" (JsValue.vNum now)
  (user, ⟨JsMap.set st.users (getProp user "id") user, st.nextId + 1⟩)

/-- `UserService.getUserById(id)`: `this.users.get(id)`. -/
def getUserById (id : JsValue) (st : StoreState) : Option Obj :=
  JsMap.get st.users id

/-- `UserService.updateUser(id, userData)`: throws `'User not found'` when the
id is absent, otherwise stores and returns
`\x7b ...user, ...userData, updatedAt: now \x7d`. -/
def updateUser (id : JsValue) (userData : Obj) (now : Nat) (st : StoreState) :
    Except String Obj × StoreState :=
  match JsMap.get st.users id with
  | none => (Except.error "User not found", st)
  | some user =>
      let updatedUser := JsMap.set (spread user userData) "updatedAt" (JsValue.vNum now)
      (Except.ok updatedUser, ⟨JsMap.set st.users id updatedUser, st.nextId⟩)

/-- `UserService.deleteUser(id)`: throws `'User not found'` when the id is
absent, otherwise removes the entry. -/
def deleteUser (id : JsValue) (st : StoreState) : Except String Unit × StoreState :=
  if JsMap.has st.users id then (Except.ok (), ⟨JsMap.del st.users id, st.nextId⟩)
  else (Except.error "User not found", st)

/-! The `ValidationUtils` object. -/

/-- The characters JS regex `\s` matches: the ECMAScript WhiteSpace set
(tab, vertical tab, form feed, space, no-break space, the Space_Separator
category, U+FEFF) together with the LineTerminator set (LF, CR, U+2028,
U+2029).  All of them are Basic Multilingual Plane scalars. -/
def jsWhitespace (c : Char) : Bool :=
  c.toNat == 0x09 || c.toNat == 0x0a || c.toNat == 0x0b || c.toNat == 0x0c ||
  c.toNat == 0x0d || c.toNat == 0x20 || c.toNat == 0xa0 || c.toNat == 0x1680 ||
  (decide (0x2000 ≤ c.toNat) && decide (c.toNat ≤ 0x200a)) ||
  c.toNat == 0x2028 || c.toNat == 0x2029 || c.toNat == 0x202f ||
  c.toNat == 0x205f || c.toNat == 0x3000 || c.toNat == 0xfeff

/-- One character of the class `[^\s@]` of the email regex. -/
def okChar (c : Char) : Bool := !jsWhitespace c && c != '@'

/-- Every character is in `[^\s@]`. -/
def allOk (cs : List Char) : Bool := cs.all okChar

/-- Matches `[^\s@]*\.[^\s@]+` against the whole list: scanning the rest of
the domain, either the current character is the regex's literal dot (with a
non-empty `[^\s@]+` tail), or it belongs to the part before the dot. -/
def dotThen : List Char → Bool
  | [] => false
  | c :: rest => (c == '.' && !rest.isEmpty && allOk rest) || (okChar c && dotThen rest)

/-- Matches `[^\s@]+\.[^\s@]+` (the part after `@`) against the whole list. -/
def domainMatch : List Char → Bool
  | [] => false
  | c :: rest => okChar c && dotThen rest

/-- Matches `[^\s@]*@[^\s@]+\.[^\s@]+` against the whole list: scanning the
rest of the local part up to the literal `@`. -/
def localThen : List Char → Bool
  | [] => false
  | c :: rest => (c == '@' && domainMatch rest) || (okChar c && localThen rest)

/-- `ValidationUtils.validateEmail(email)`:
`/^[^\s@]+@[^\s@]+\.[^\s@]+$/.test(email)`.  The regex (no `u` flag) runs
over UTF-16 code units, but on a well-formed string the per-unit and
per-character runs coincide: every `\s` character and both literals `@` and
`.` are single BMP units, while a supplementary character's two surrogate
units are, like the character itself, in `[^\s@]` — so scanning characters
is faithful. -/
def validateEmail (email : String) : Bool :=
  match email.toList with
  | [] => false
  | c :: rest => okChar c && localThen rest

/-- JS `string.length`: the number of UTF-16 code units.  A scalar value
above U+FFFF is encoded as a surrogate pair (2 units); every other
character is 1 unit. -/
def utf16Length (s : String) : Nat :=
  s.toList.foldl (fun n c => n + (if c.toNat < 0x10000 then 1 else 2)) 0

/-- `ValidationUtils.validateUsername(username)` for string input:
`username && username.length >= 3 && username.length <= 50`, where the empty
string is falsy and `.length` counts UTF-16 code units. -/
def validateUsername (username : String) : Bool :=
  username != "" && decide (3 ≤ utf16Length username) &&
    decide (utf16Length username ≤ 50)

/-- `ValidationUtils.validatePassword(password)` for string input:
`password && password.length >= 8`, where `.length` counts UTF-16 code
units. -/
def validatePassword (password : String) : Bool :=
  password != "" && decide (8 ≤ utf16Length password)

/-! The `rateLimiter(windowMs, max)` middleware (defaults
`windowMs = 15 * 60 * 1000`, `max = 100`).  Its closure state is the
`requests` map from client key (`req.ip`) to the stored array of instants. -/

/-- The closure state of one `rateLimiter` middleware instance. -/
structure RateLimiterState where
  requests : List (String × List Int)
deriving DecidableEq, Repr

/-- One invocation of the middleware returned by `rateLimiter(windowMs, max)`
for client `key` at instant `now`.  Returns whether the request was admitted
(`next()` called, versus the 429 response) together with the updated closure
state. -/
def rateLimiterCall (windowMs max : Int) (key : String) (now : Int)
    (st : RateLimiterState) : Bool × RateLimiterState :=
  let requests :=
    if JsMap.has st.requests key then st.requests else JsMap.set st.requests key []
  let userRequests := (JsMap.get requests key).getD []
  let windowStart := now - windowMs
  let validRequests := userRequests.filter (fun time => windowStart < time)
  if max ≤ (validRequests.length : Int) then
    (false, ⟨requests⟩)
  else
    (true, ⟨JsMap.set requests key (validRequests ++ [now])⟩)

/-- Run the middleware over a sequence of `(clientKey, instant)` requests. -/
def rateLimiterRun (windowMs max : Int) (st : RateLimiterState)
    (calls : List (String × Int)) : RateLimiterState :=
  calls.foldl (fun s c => (rateLimiterCall windowMs max c.1 c.2 s).2) st

/-! Sequences of `UserService` operations. -/

/-- One store operation together with the clock instant it observes
(`delete` reads no clock). -/
inductive Op where
  | create (userData : Obj) (now : Nat)
  | update (id : JsValue) (userData : Obj) (now : Nat)
  | delete (id : JsValue)
deriving DecidableEq, Repr

/-- The state after one operation (its returned value dropped). -/
def stepOp (st : StoreState) : Op → StoreState
  | .create userData now => (createUser userData now st).2
  | .update id userData now => (updateUser id userData now st).2
  | .delete id => (deleteUser id st).2

/-- The state after a sequence of operations. -/
def runOps (st : StoreState) (ops : List Op) : StoreState := ops.foldl stepOp st

/-- The records returned by the create calls of `ops`, in call order. -/
def createdRecords (st : StoreState) : List Op → List Obj
  | [] => []
  | Op.create userData now :: rest =>
      (createUser userData now st).1 :: createdRecords (stepOp st (Op.create userData now)) rest
  | op :: rest => createdRecords (stepOp st op) rest

/-- Whether an operation is a create. -/
def isCreate : Op → Bool
  | Op.create _ _ => true
  | _ => false

/-- The number of creates in a sequence. -/
def numCreates (ops : List Op) : Nat := (ops.filter isCreate).length

/-- A create whose field map does not supply an `"id"` property (other
operations unconstrained): such a create cannot clobber the allocated id. -/
def createNoId : Op → Bool
  | Op.create userData _ => (JsMap.get userData "id").isNone
  | _ => true

/-- Operations whose field maps leave the store-owned fields alone: creates
supply no `"id"` property and updates supply no `"createdAt"` property. -/
def opOk : Op → Bool
  | Op.create userData _ => (JsMap.get userData "id").isNone
  | Op.update _ userData _ => (JsMap.get userData "createdAt").isNone
  | Op.delete _ => true

/-- The clock instants read along `ops` are at least `t` and non-decreasing. -/
def timesFrom : Nat → List Op → Bool
  | _, [] => true
  | t, Op.create _ now :: rest => decide (t ≤ now) && timesFrom now rest
  | t, Op.update _ _ now :: rest => decide (t ≤ now) && timesFrom now rest
  | t, Op.delete _ :: rest => timesFrom t rest

/-- The key `k` is a number below `bound`. -/
def keyBelowB (bound : Nat) : JsValue → Bool
  | JsValue.vNum n => decide (n < bound)
  | _ => false

/-- Strict order on numeric keys. -/
def keyLtB : JsValue → JsValue → Bool
  | JsValue.vNum a, JsValue.vNum b => decide (a < b)
  | _, _ => false

/-- Every map key of the store is a number below the next-id counter. -/
def storeKeysOk (st : StoreState) : Bool :=
  (JsMap.keys st.users).all (keyBelowB st.nextId)

/-- Store well-formedness: keys numeric below the counter and pairwise
distinct.  It holds at `initialState` and is preserved by the operations. -/
def StoreWF (st : StoreState) : Prop :=
  storeKeysOk st = true ∧ (JsMap.keys st.users).Nodup

/-- Every stored record's `"updatedAt"` is an instant at most `t`. -/
def updatedAtLe (t : Nat) (r : Obj) : Bool :=
  match JsMap.get r "updatedAt" with
  | some (JsValue.vNum u) => decide (u ≤ t)
  | _ => false

/-- All stored records carry `"updatedAt"` instants at most `t`. -/
def storeTimesOk (t : Nat) (st : StoreState) : Bool :=
  st.users.all (fun e => updatedAtLe t e.2)

/-- The `"updatedAt"` instant of a record, when it is one. -/
def updatedAtVal (r : Obj) : Option Nat :=
  match JsMap.get r "updatedAt" with
  | some (JsValue.vNum u) => some u
  | _ => none

/-- The store's entries are listed in strictly increasing key order (hence in
creation order, ids being allocated increasingly), with keys below the
counter. -/
def storeOrdered (st : StoreState) : Prop :=
  storeKeysOk st = true ∧
    List.Pairwise (fun a b => keyLtB a b = true) (JsMap.keys st.users)

/-- The shape `local@domain.tld` described by the spec for `validateEmail`:
a non-empty `[^\s@]` local part, then `@`, then a domain that splits at some
dot into two non-empty `[^\s@]` parts. -/
def EmailShape (s : String) : Prop :=
  ∃ l d1 d2 : List Char,
    s.toList = l ++ '@' :: (d1 ++ '.' :: d2) ∧
    l ≠ [] ∧ allOk l = true ∧ d1 ≠ [] ∧ allOk d1 = true ∧ d2 ≠ [] ∧ allOk d2 = true

/-- Every stored timestamp array of the rate limiter has at most `max`
entries; this holds along every execution started from the empty map. -/
def rlBounded (max : Int) (st : RateLimiterState) : Prop :=
  ∀ e ∈ st.requests, (e.2.length : Int) ≤ max

end ApiJs

namespace ApiJs

/-! ### Lemmas about the association-list maps -/

namespace JsMap

variable {α : Type} {β : Type} [DecidableEq α]

@[simp]
theorem keys_nil : keys ([] : List (α × β)) = [] := rfl

@[simp]
theorem keys_cons (p : α × β) (m : List (α × β)) : keys (p :: m) = p.1 :: keys m := rfl

@[simp]
theorem get_set_self (m : List (α × β)) (k : α) (v : β) : get (set m k v) k = some v := by
  induction m with
  | nil => simp [get, set]
  | cons p rest ih =>
      obtain ⟨k1, v1⟩ := p
      by_cases h : k1 = k
      · subst h; simp [get, set]
      · simp [get, set, h, ih]

theorem get_set_ne (m : List (α × β)) (k : α) (v : β) {k1 : α} (h : k1 ≠ k) :
    get (set m k v) k1 = get m k1 := by
  have h' : ¬(k = k1) := fun hk => h hk.symm
  induction m with
  | nil => simp [get, set, h']
  | cons p rest ih =>
      obtain ⟨k2, v2⟩ := p
      by_cases h2 : k2 = k
      · subst h2; simp [get, set, h']
      · simp only [set, if_neg h2, get]
        by_cases h3 : k2 = k1
        · simp [h3]
        · simp [h3, ih]

theorem get_eq_none_iff (m : List (α × β)) (k : α) : get m k = none ↔ k ∉ keys m := by
  induction m with
  | nil => simp [get]
  | cons p rest ih =>
      obtain ⟨k1, v1⟩ := p
      by_cases h : k1 = k
      · subst h; simp [get]
      · have h' : ¬(k = k1) := fun hk => h hk.symm
        simp [get, h, h', ih]

theorem mem_of_get_eq_some {m : List (α × β)} {k : α} {v : β} (h : get m k = some v) :
    (k, v) ∈ m := by
  induction m with
  | nil => simp [get] at h
  | cons p rest ih =>
      obtain ⟨k1, v1⟩ := p
      by_cases h1 : k1 = k
      · subst h1
        simp only [get, if_pos rfl] at h
        cases h
        exact List.mem_cons_self _ _
      · simp only [get, if_neg h1] at h
        exact List.mem_cons_of_mem _ (ih h)

theorem mem_keys_of_get_eq_some {m : List (α × β)} {k : α} {v : β}
    (h : get m k = some v) : k ∈ keys m :=
  List.mem_map_of_mem Prod.fst (mem_of_get_eq_some h)

theorem has_iff_mem_keys (m : List (α × β)) (k : α) : has m k = true ↔ k ∈ keys m := by
  unfold has
  cases hg : get m k with
  | none => simp [Option.isSome, ← get_eq_none_iff m k, hg]
  | some v => simp [Option.isSome, mem_keys_of_get_eq_some hg]

theorem mem_set {m : List (α × β)} {k : α} {v : β} {e : α × β} (h : e ∈ set m k v) :
    e = (k, v) ∨ e ∈ m := by
  induction m with
  | nil => simp [set] at h; simp [h]
  | cons p rest ih =>
      obtain ⟨k1, v1⟩ := p
      by_cases h1 : k1 = k
      · subst h1
        simp only [set, if_pos rfl] at h
        rcases List.mem_cons.mp h with h | h
        · exact Or.inl h
        · exact Or.inr (List.mem_cons_of_mem _ h)
      · simp only [set, if_neg h1] at h
        rcases List.mem_cons.mp h with h | h
        · exact Or.inr (by simp [h])
        · rcases ih h with h | h
          · exact Or.inl h
          · exact Or.inr (List.mem_cons_of_mem _ h)

theorem del_sublist (m : List (α × β)) (k : α) : (del m k).Sublist m := by
  induction m with
  | nil => simp [del]
  | cons p rest ih =>
      obtain ⟨k1, v1⟩ := p
      by_cases h : k1 = k
      · simp [del, h]
      · simpa [del, h] using ih.cons₂ (k1, v1)

theorem mem_del {m : List (α × β)} {k : α} {e : α × β} (h : e ∈ del m k) : e ∈ m :=
  (del_sublist m k).mem h

theorem get_del_ne (m : List (α × β)) (k : α) {k1 : α} (h : k1 ≠ k) :
    get (del m k) k1 = get m k1 := by
  induction m with
  | nil => simp [del]
  | cons p rest ih =>
      obtain ⟨k2, v2⟩ := p
      by_cases h2 : k2 = k
      · subst h2
        have h' : ¬(k2 = k1) := fun hk => h hk.symm
        simp [del, get, h']
      · simp only [del, if_neg h2, get]
        by_cases h3 : k2 = k1
        · simp [h3]
        · simp [h3, ih]

theorem get_del_none {m : List (α × β)} {k k1 : α} (h : get m k1 = none) :
    get (del m k) k1 = none := by
  rw [get_eq_none_iff] at h ⊢
  intro hmem
  exact h (((del_sublist m k).map Prod.fst).mem hmem)

theorem get_del_self {m : List (α × β)} (hm : (keys m).Nodup) (k : α) :
    get (del m k) k = none := by
  induction m with
  | nil => simp [del, get]
  | cons p rest ih =>
      obtain ⟨k1, v1⟩ := p
      simp only [keys, List.map_cons, List.nodup_cons] at hm
      by_cases h : k1 = k
      · subst h
        simp only [del, if_pos rfl]
        exact (get_eq_none_iff rest k1).mpr hm.1
      · simp only [del, if_neg h, get, if_neg h]
        exact ih hm.2

theorem keys_set_of_mem {m : List (α × β)} {k : α} (v : β) (h : k ∈ keys m) :
    keys (set m k v) = keys m := by
  induction m with
  | nil => simp at h
  | cons p rest ih =>
      obtain ⟨k1, v1⟩ := p
      by_cases h1 : k1 = k
      · subst h1; simp [set]
      · have h2 : k ∈ keys rest := by
          rcases List.mem_cons.mp h with h | h
          · exact absurd h.symm h1
          · exact h
        simp only [set, if_neg h1, keys_cons]
        rw [ih h2]

theorem keys_set_of_not_mem {m : List (α × β)} {k : α} (v : β) (h : k ∉ keys m) :
    keys (set m k v) = keys m ++ [k] := by
  induction m with
  | nil => simp [set]
  | cons p rest ih =>
      obtain ⟨k1, v1⟩ := p
      simp only [keys_cons, List.mem_cons] at h
      push_neg at h
      have h1 : ¬(k1 = k) := fun hk => h.1 hk.symm
      simp only [set, if_neg h1, keys_cons, List.cons_append]
      rw [ih h.2]

theorem nodup_keys_set {m : List (α × β)} {k : α} (v : β) (h : (keys m).Nodup) :
    (keys (set m k v)).Nodup := by
  by_cases hk : k ∈ keys m
  · rw [keys_set_of_mem v hk]; exact h
  · rw [keys_set_of_not_mem v hk]
    simp [List.nodup_append, h, hk]

theorem nodup_keys_del {m : List (α × β)} (k : α) (h : (keys m).Nodup) :
    (keys (del m k)).Nodup :=
  h.sublist ((del_sublist m k).map Prod.fst)

end JsMap

/-! ### Lemmas about object spread -/

theorem spread_cons (a : Obj) (k : String) (v : JsValue) (b : Obj) :
    spread a ((k, v) :: b) = spread (JsMap.set a k v) b := rfl

theorem get_spread_of_none (a : Obj) {b : Obj} {k : String}
    (hb : JsMap.get b k = none) : JsMap.get (spread a b) k = JsMap.get a k := by
  induction b generalizing a with
  | nil => rfl
  | cons p rest ih =>
      obtain ⟨k1, v1⟩ := p
      by_cases h1 : k1 = k
      · subst h1; simp [JsMap.get] at hb
      · simp only [JsMap.get, if_neg h1] at hb
        rw [spread_cons, ih _ hb, JsMap.get_set_ne _ _ _ (fun hk => h1 hk.symm)]

theorem get_spread_of_some (a : Obj) {b : Obj} {k : String} {v : JsValue}
    (hb : (JsMap.keys b).Nodup) (h : JsMap.get b k = some v) :
    JsMap.get (spread a b) k = some v := by
  induction b generalizing a with
  | nil => simp [JsMap.get] at h
  | cons p rest ih =>
      obtain ⟨k1, v1⟩ := p
      simp only [JsMap.keys, List.map_cons, List.nodup_cons] at hb
      by_cases h1 : k1 = k
      · subst h1
        simp only [JsMap.get, if_pos rfl] at h
        cases h
        rw [spread_cons, get_spread_of_none _ ((JsMap.get_eq_none_iff rest k1).mpr hb.1)]
        exact JsMap.get_set_self a k1 _
      · simp only [JsMap.get, if_neg h1] at h
        rw [spread_cons]
        exact ih (JsMap.set a k1 v1) hb.2 h

/-! ### Facts about the records built by the service -/

theorem createUser_fst (userData : Obj) (now : Nat) (st : StoreState) :
    (createUser userData now st).1 =
      JsMap.set
        (JsMap.set (spread [("id", JsValue.vNum st.nextId)] userData)
          "createdAt" (JsValue.vNum now))
        "updatedAt" (JsValue.vNum now) := rfl

theorem createUser_snd (userData : Obj) (now : Nat) (st : StoreState) :
    (createUser userData now st).2 =
      ⟨JsMap.set st.users (getProp (createUser userData now st).1 "id")
        (createUser userData now st).1, st.nextId + 1⟩ := rfl

theorem createUser_get_updatedAt (userData : Obj) (now : Nat) (st : StoreState) :
    JsMap.get (createUser userData now st).1 "updatedAt" = some (JsValue.vNum now) := by
  rw [createUser_fst]
  exact JsMap.get_set_self _ _ _

theorem createUser_get_createdAt (userData : Obj) (now : Nat) (st : StoreState) :
    JsMap.get (createUser userData now st).1 "createdAt" = some (JsValue.vNum now) := by
  rw [createUser_fst,
    JsMap.get_set_ne _ _ _ (by decide : ("createdAt" : String) ≠ "updatedAt")]
  exact JsMap.get_set_self _ _ _

theorem createUser_get_id {userData : Obj} (hud : JsMap.get userData "id" = none)
    (now : Nat) (st : StoreState) :
    JsMap.get (createUser userData now st).1 "id" = some (JsValue.vNum st.nextId) := by
  rw [createUser_fst,
    JsMap.get_set_ne _ _ _ (by decide : ("id" : String) ≠ "updatedAt"),
    JsMap.get_set_ne _ _ _ (by decide : ("id" : String) ≠ "createdAt"),
    get_spread_of_none _ hud]
  rfl

theorem createUser_getProp_id {userData : Obj} (hud : JsMap.get userData "id" = none)
    (now : Nat) (st : StoreState) :
    getProp (createUser userData now st).1 "id" = JsValue.vNum st.nextId := by
  rw [getProp, createUser_get_id hud]
  rfl

theorem updateUser_absent {st : StoreState} {id : JsValue}
    (h : JsMap.get st.users id = none) (userData : Obj) (now : Nat) :
    updateUser id userData now st = (Except.error "User not found", st) := by
  rw [updateUser, h]

theorem updateUser_present {st : StoreState} {id : JsValue} {user : Obj}
    (h : JsMap.get st.users id = some user) (userData : Obj) (now : Nat) :
    updateUser id userData now st =
      (Except.ok (JsMap.set (spread user userData) "updatedAt" (JsValue.vNum now)),
        ⟨JsMap.set st.users id
          (JsMap.set (spread user userData) "updatedAt" (JsValue.vNum now)),
          st.nextId⟩) := by
  rw [updateUser, h]

theorem deleteUser_absent {st : StoreState} {id : JsValue}
    (h : JsMap.get st.users id = none) :
    deleteUser id st = (Except.error "User not found", st) := by
  rw [deleteUser, JsMap.has, h]
  rfl

theorem deleteUser_present {st : StoreState} {id : JsValue} {user : Obj}
    (h : JsMap.get st.users id = some user) :
    deleteUser id st = (Except.ok (), ⟨JsMap.del st.users id, st.nextId⟩) := by
  rw [deleteUser, JsMap.has, h]
  rfl

theorem stepOp_nextId_le (st : StoreState) (op : Op) :
    st.nextId ≤ (stepOp st op).nextId := by
  cases op with
  | create userData now => exact Nat.le_succ _
  | update id userData now =>
      cases h : JsMap.get st.users id with
      | none => rw [stepOp, updateUser_absent h]
      | some user => rw [stepOp, updateUser_present h]
  | delete id =>
      cases h : JsMap.get st.users id with
      | none => rw [stepOp, deleteUser_absent h]
      | some user => rw [stepOp, deleteUser_present h]

theorem stepOp_nextId_update (st : StoreState) (id : JsValue) (userData : Obj)
    (now : Nat) : (stepOp st (Op.update id userData now)).nextId = st.nextId := by
  cases h : JsMap.get st.users id with
  | none => rw [stepOp, updateUser_absent h]
  | some user => rw [stepOp, updateUser_present h]

theorem stepOp_nextId_delete (st : StoreState) (id : JsValue) :
    (stepOp st (Op.delete id)).nextId = st.nextId := by
  cases h : JsMap.get st.users id with
  | none => rw [stepOp, deleteUser_absent h]
  | some user => rw [stepOp, deleteUser_present h]

theorem createUser_users (userData : Obj) (now : Nat) (st : StoreState) :
    (createUser userData now st).2.users =
      JsMap.set st.users (getProp (createUser userData now st).1 "id")
        (createUser userData now st).1 := rfl

theorem createUser_users_of_noId {userData : Obj}
    (hud : JsMap.get userData "id" = none) (now : Nat) (st : StoreState) :
    (createUser userData now st).2.users =
      JsMap.set st.users (JsValue.vNum st.nextId) (createUser userData now st).1 := by
  rw [createUser_users, createUser_getProp_id hud]

theorem updateUser_users_present {st : StoreState} {id : JsValue} {user : Obj}
    (h : JsMap.get st.users id = some user) (userData : Obj) (now : Nat) :
    (updateUser id userData now st).2.users =
      JsMap.set st.users id
        (JsMap.set (spread user userData) "updatedAt" (JsValue.vNum now)) := by
  rw [updateUser, h]

theorem deleteUser_users_present {st : StoreState} {id : JsValue} {user : Obj}
    (h : JsMap.get st.users id = some user) :
    (deleteUser id st).2.users = JsMap.del st.users id := by
  rw [deleteUser, JsMap.has, h]
  rfl

theorem runOps_nil (st : StoreState) : runOps st [] = st := rfl

theorem runOps_cons (st : StoreState) (op : Op) (ops : List Op) :
    runOps st (op :: ops) = runOps (stepOp st op) ops := rfl

/-! ### Preservation of the store invariants -/

theorem keyBelowB_mono {b1 b2 : Nat} (h : b1 ≤ b2) {k : JsValue}
    (hk : keyBelowB b1 k = true) : keyBelowB b2 k = true := by
  cases k <;> simp [keyBelowB] at hk ⊢ <;> omega

theorem storeKeysOk_iff (st : StoreState) :
    storeKeysOk st = true ↔ ∀ k ∈ JsMap.keys st.users, keyBelowB st.nextId k = true := by
  simp [storeKeysOk, List.all_eq_true]

theorem nextId_key_not_mem {st : StoreState} (h : storeKeysOk st = true) :
    JsValue.vNum st.nextId ∉ JsMap.keys st.users := by
  intro hmem
  have := (storeKeysOk_iff st).mp h _ hmem
  simp [keyBelowB] at this

theorem storeKeysOk_step {st : StoreState} {op : Op} (hop : createNoId op = true)
    (h : storeKeysOk st = true) : storeKeysOk (stepOp st op) = true := by
  cases op with
  | create userData now =>
      rw [createNoId, Option.isNone_iff_eq_none] at hop
      rw [storeKeysOk_iff]
      intro k hk
      rw [stepOp] at hk ⊢
      rw [show (createUser userData now st).2.nextId = st.nextId + 1 from rfl]
      rw [createUser_users_of_noId hop] at hk
      rw [JsMap.keys_set_of_not_mem _ (nextId_key_not_mem h)] at hk
      rcases List.mem_append.mp hk with hk | hk
      · exact keyBelowB_mono (Nat.le_succ _) ((storeKeysOk_iff st).mp h _ hk)
      · simp only [List.mem_singleton] at hk
        subst hk
        simp [keyBelowB]
  | update id userData now =>
      cases hg : JsMap.get st.users id with
      | none => rw [stepOp, updateUser_absent hg]; exact h
      | some user =>
          rw [storeKeysOk_iff]
          intro k hk
          rw [stepOp, updateUser_users_present hg,
            JsMap.keys_set_of_mem _ (JsMap.mem_keys_of_get_eq_some hg)] at hk
          rw [stepOp, show (updateUser id userData now st).2.nextId = st.nextId from by
            rw [updateUser, hg]]
          exact (storeKeysOk_iff st).mp h _ hk
  | delete id =>
      cases hg : JsMap.get st.users id with
      | none => rw [stepOp, deleteUser_absent hg]; exact h
      | some user =>
          rw [storeKeysOk_iff]
          intro k hk
          rw [stepOp, deleteUser_users_present hg] at hk
          rw [stepOp, show (deleteUser id st).2.nextId = st.nextId from by
            rw [deleteUser, JsMap.has, hg]; rfl]
          have hsub : (JsMap.keys (JsMap.del st.users id)).Sublist (JsMap.keys st.users) :=
            (JsMap.del_sublist st.users id).map Prod.fst
          exact (storeKeysOk_iff st).mp h _ (hsub.mem hk)

theorem stepOp_nodupKeys {st : StoreState} (op : Op)
    (h : (JsMap.keys st.users).Nodup) : (JsMap.keys (stepOp st op).users).Nodup := by
  cases op with
  | create userData now =>
      rw [stepOp, createUser_users]
      exact JsMap.nodup_keys_set _ h
  | update id userData now =>
      cases hg : JsMap.get st.users id with
      | none => rw [stepOp, updateUser_absent hg]; exact h
      | some user =>
          rw [stepOp, updateUser_users_present hg]
          exact JsMap.nodup_keys_set _ h
  | delete id =>
      cases hg : JsMap.get st.users id with
      | none => rw [stepOp, deleteUser_absent hg]; exact h
      | some user =>
          rw [stepOp, deleteUser_users_present hg]
          exact JsMap.nodup_keys_del _ h

theorem StoreWF_step {st : StoreState} {op : Op} (hop : createNoId op = true)
    (h : StoreWF st) : StoreWF (stepOp st op) :=
  ⟨storeKeysOk_step hop h.1, stepOp_nodupKeys op h.2⟩

theorem updatedAtVal_eq_some {r : Obj} {u : Nat} :
    updatedAtVal r = some u ↔ JsMap.get r "updatedAt" = some (JsValue.vNum u) := by
  rw [updatedAtVal]
  cases hg : JsMap.get r "updatedAt" with
  | none => simp [hg]
  | some v => cases v <;> simp [hg]

theorem updatedAtLe_iff {t : Nat} {r : Obj} :
    updatedAtLe t r = true ↔ ∃ u, updatedAtVal r = some u ∧ u ≤ t := by
  rw [updatedAtLe, updatedAtVal]
  cases hg : JsMap.get r "updatedAt" with
  | none => simp [hg]
  | some v => cases v <;> simp [hg]

theorem updatedAtLe_mono {t1 t2 : Nat} (h : t1 ≤ t2) {r : Obj}
    (hr : updatedAtLe t1 r = true) : updatedAtLe t2 r = true := by
  rw [updatedAtLe_iff] at hr ⊢
  obtain ⟨u, hu, hle⟩ := hr
  exact ⟨u, hu, hle.trans h⟩

theorem storeTimesOk_iff (t : Nat) (st : StoreState) :
    storeTimesOk t st = true ↔ ∀ e ∈ st.users, updatedAtLe t e.2 = true := by
  simp [storeTimesOk, List.all_eq_true]

theorem storeTimesOk_mono {t1 t2 : Nat} (h : t1 ≤ t2) {st : StoreState}
    (ht : storeTimesOk t1 st = true) : storeTimesOk t2 st = true := by
  rw [storeTimesOk_iff] at ht ⊢
  exact fun e he => updatedAtLe_mono h (ht e he)

theorem storeTimesOk_create {st : StoreState} {t now : Nat} (userData : Obj)
    (ht : storeTimesOk t st = true) (hle : t ≤ now) :
    storeTimesOk now (stepOp st (Op.create userData now)) = true := by
  rw [storeTimesOk_iff]
  intro e he
  rw [stepOp, createUser_users] at he
  rcases JsMap.mem_set he with he | he
  · subst he
    rw [updatedAtLe, createUser_get_updatedAt]
    simp
  · exact updatedAtLe_mono hle ((storeTimesOk_iff t st).mp ht e he)

theorem storeTimesOk_update {st : StoreState} {t now : Nat} (id : JsValue)
    (userData : Obj) (ht : storeTimesOk t st = true) (hle : t ≤ now) :
    storeTimesOk now (stepOp st (Op.update id userData now)) = true := by
  cases hg : JsMap.get st.users id with
  | none => rw [stepOp, updateUser_absent hg]; exact storeTimesOk_mono hle ht
  | some user =>
      rw [storeTimesOk_iff]
      intro e he
      rw [stepOp, updateUser_users_present hg] at he
      rcases JsMap.mem_set he with he | he
      · subst he
        rw [updatedAtLe, JsMap.get_set_self]
        simp
      · exact updatedAtLe_mono hle ((storeTimesOk_iff t st).mp ht e he)

theorem storeTimesOk_delete {st : StoreState} {t : Nat} (id : JsValue)
    (ht : storeTimesOk t st = true) :
    storeTimesOk t (stepOp st (Op.delete id)) = true := by
  cases hg : JsMap.get st.users id with
  | none => rw [stepOp, deleteUser_absent hg]; exact ht
  | some user =>
      rw [storeTimesOk_iff]
      intro e he
      rw [stepOp, deleteUser_users_present hg] at he
      exact (storeTimesOk_iff t st).mp ht e (JsMap.mem_del he)

/-! ### Once absent (with a key below the counter), always absent -/

theorem keyBelowB_ne_nextId {st : StoreState} {k : JsValue}
    (hb : keyBelowB st.nextId k = true) : k ≠ JsValue.vNum st.nextId := by
  cases k with
  | vNum n =>
      simp only [keyBelowB, decide_eq_true_eq] at hb
      intro heq
      cases heq
      omega
  | vStr s => intro heq; cases heq
  | vUndefined => intro heq; cases heq

theorem absent_step {st : StoreState} {k : JsValue} {op : Op}
    (hb : keyBelowB st.nextId k = true) (hop : createNoId op = true)
    (h : JsMap.get st.users k = none) :
    JsMap.get (stepOp st op).users k = none := by
  cases op with
  | create userData now =>
      rw [createNoId, Option.isNone_iff_eq_none] at hop
      rw [stepOp, createUser_users_of_noId hop,
        JsMap.get_set_ne _ _ _ (keyBelowB_ne_nextId hb)]
      exact h
  | update id userData now =>
      cases hg : JsMap.get st.users id with
      | none => rw [stepOp, updateUser_absent hg]; exact h
      | some user =>
          have hne : k ≠ id := by
            intro heq
            rw [heq, hg] at h
            cases h
          rw [stepOp, updateUser_users_present hg, JsMap.get_set_ne _ _ _ hne]
          exact h
  | delete id =>
      cases hg : JsMap.get st.users id with
      | none => rw [stepOp, deleteUser_absent hg]; exact h
      | some user =>
          rw [stepOp, deleteUser_users_present hg]
          exact JsMap.get_del_none h

theorem absent_run {st : StoreState} {k : JsValue} {ops : List Op}
    (hb : keyBelowB st.nextId k = true) (hops : ops.all createNoId = true)
    (h : JsMap.get st.users k = none) :
    JsMap.get (runOps st ops).users k = none := by
  induction ops generalizing st with
  | nil => exact h
  | cons op rest ih =>
      rw [List.all_cons, Bool.and_eq_true] at hops
      rw [runOps_cons]
      exact ih (keyBelowB_mono (stepOp_nextId_le st op) hb) hops.2
        (absent_step hb hops.1 h)

/-! ### One step preserves `createdAt` and does not decrease `updatedAt` -/

theorem present_step {st : StoreState} {op : Op} {t : Nat} {k : JsValue} {r r' : Obj}
    (hwf : StoreWF st) (hop : opOk op = true) (htop : timesFrom t [op] = true)
    (hu : updatedAtLe t r = true)
    (hr : JsMap.get st.users k = some r)
    (hr' : JsMap.get (stepOp st op).users k = some r') :
    JsMap.get r' "createdAt" = JsMap.get r "createdAt" ∧
      ∀ u, updatedAtVal r = some u → ∃ u', updatedAtVal r' = some u' ∧ u ≤ u' := by
  cases op with
  | create userData now =>
      rw [opOk, Option.isNone_iff_eq_none] at hop
      have hb : keyBelowB st.nextId k = true :=
        (storeKeysOk_iff st).mp hwf.1 _ (JsMap.mem_keys_of_get_eq_some hr)
      rw [stepOp, createUser_users_of_noId hop,
        JsMap.get_set_ne _ _ _ (keyBelowB_ne_nextId hb), hr] at hr'
      cases hr'
      exact ⟨rfl, fun u hu' => ⟨u, hu', Nat.le_refl u⟩⟩
  | update id userData now =>
      rw [opOk, Option.isNone_iff_eq_none] at hop
      have hle : t ≤ now := by
        simp only [timesFrom, Bool.and_eq_true, decide_eq_true_eq] at htop
        exact htop.1
      cases hg : JsMap.get st.users id with
      | none =>
          rw [stepOp, updateUser_absent hg, hr] at hr'
          cases hr'
          exact ⟨rfl, fun u hu' => ⟨u, hu', Nat.le_refl u⟩⟩
      | some user =>
          by_cases hik : id = k
          · subst hik
            rw [hr] at hg
            cases hg
            rw [stepOp, updateUser_users_present hr, JsMap.get_set_self] at hr'
            cases hr'
            constructor
            · rw [JsMap.get_set_ne _ _ _
                (by decide : ("createdAt" : String) ≠ "updatedAt"),
                get_spread_of_none _ hop]
            · intro u hu'
              refine ⟨now, ?_, ?_⟩
              · rw [updatedAtVal_eq_some, JsMap.get_set_self]
              · obtain ⟨u0, hu0, hu0t⟩ := updatedAtLe_iff.mp hu
                rw [hu0] at hu'
                cases hu'
                exact hu0t.trans hle
          · have hne : k ≠ id := fun heq => hik heq.symm
            rw [stepOp, updateUser_users_present hg, JsMap.get_set_ne _ _ _ hne,
              hr] at hr'
            cases hr'
            exact ⟨rfl, fun u hu' => ⟨u, hu', Nat.le_refl u⟩⟩
  | delete id =>
      cases hg : JsMap.get st.users id with
      | none =>
          rw [stepOp, deleteUser_absent hg, hr] at hr'
          cases hr'
          exact ⟨rfl, fun u hu' => ⟨u, hu', Nat.le_refl u⟩⟩
      | some user =>
          by_cases hik : id = k
          · subst hik
            rw [stepOp, deleteUser_users_present hg, JsMap.get_del_self hwf.2] at hr'
            cases hr'
          · have hne : k ≠ id := fun heq => hik heq.symm
            rw [stepOp, deleteUser_users_present hg, JsMap.get_del_ne _ _ hne,
              hr] at hr'
            cases hr'
            exact ⟨rfl, fun u hu' => ⟨u, hu', Nat.le_refl u⟩⟩

theorem createNoId_of_opOk {op : Op} (h : opOk op = true) : createNoId op = true := by
  cases op <;> simp_all [opOk, createNoId]

theorem all_createNoId_of_opOk {ops : List Op} (h : ops.all opOk = true) :
    ops.all createNoId = true := by
  rw [List.all_eq_true] at h ⊢
  exact fun op hop => createNoId_of_opOk (h op hop)

theorem times_step_pack {st : StoreState} {t : Nat} {op : Op} {rest : List Op}
    (htimes : timesFrom t (op :: rest) = true) (ht : storeTimesOk t st = true) :
    ∃ t1, timesFrom t [op] = true ∧ storeTimesOk t1 (stepOp st op) = true ∧
      timesFrom t1 rest = true := by
  cases op with
  | create userData now =>
      rw [timesFrom, Bool.and_eq_true, decide_eq_true_eq] at htimes
      exact ⟨now, by simp [timesFrom, htimes.1],
        storeTimesOk_create userData ht htimes.1, htimes.2⟩
  | update id userData now =>
      rw [timesFrom, Bool.and_eq_true, decide_eq_true_eq] at htimes
      exact ⟨now, by simp [timesFrom, htimes.1],
        storeTimesOk_update id userData ht htimes.1, htimes.2⟩
  | delete id =>
      rw [timesFrom] at htimes
      exact ⟨t, by simp [timesFrom], storeTimesOk_delete id ht, htimes⟩

/-! ### The claims -/

/-- C1 (amended: create field maps must not supply an `"id"` property, since
`\x7b id: this.nextId++, ...userData, ... \x7d` lets `userData.id` overwrite the
allocated id — see the counterexample).  Over any operation sequence whose
creates carry no `"id"` key, the ids of the records returned by the N creates
are the N consecutive integers starting at the current counter, in call
order, hence pairwise distinct; in particular no id — including one whose
record is deleted in the sequence — is ever assigned twice. -/
theorem c1_create_ids_consecutive_distinct (st : StoreState) (ops : List Op)
    (h : ops.all createNoId = true) :
    (createdRecords st ops).map (fun r => getProp r "id") =
      (List.range' st.nextId (numCreates ops)).map JsValue.vNum ∧
    ((createdRecords st ops).map (fun r => getProp r "id")).Nodup := by
  have hmain : ∀ ops1 st1, ops1.all createNoId = true →
      (createdRecords st1 ops1).map (fun r => getProp r "id") =
        (List.range' st1.nextId (numCreates ops1)).map JsValue.vNum := by
    intro ops1
    induction ops1 with
    | nil => intro st1 _; simp [createdRecords, numCreates]
    | cons op rest ih =>
        intro st1 h1
        rw [List.all_cons, Bool.and_eq_true] at h1
        cases op with
        | create userData now =>
            have hid : JsMap.get userData "id" = none := by
              have := h1.1
              rwa [createNoId, Option.isNone_iff_eq_none] at this
            have hnum : numCreates (Op.create userData now :: rest)
                = numCreates rest + 1 := by
              simp [numCreates, isCreate]
            rw [createdRecords, List.map_cons, hnum, List.range'_succ,
              List.map_cons, createUser_getProp_id hid]
            have hnext : (stepOp st1 (Op.create userData now)).nextId
                = st1.nextId + 1 := rfl
            rw [← hnext, ih _ h1.2]
        | update id userData now =>
            have hnum : numCreates (Op.update id userData now :: rest)
                = numCreates rest := by
              simp [numCreates, isCreate]
            have hcr : createdRecords st1 (Op.update id userData now :: rest)
                = createdRecords (stepOp st1 (Op.update id userData now)) rest := rfl
            rw [hcr, hnum, ← stepOp_nextId_update st1 id userData now, ih _ h1.2]
        | delete id =>
            have hnum : numCreates (Op.delete id :: rest) = numCreates rest := by
              simp [numCreates, isCreate]
            have hcr : createdRecords st1 (Op.delete id :: rest)
                = createdRecords (stepOp st1 (Op.delete id)) rest := rfl
            rw [hcr, hnum, ← stepOp_nextId_delete st1 id, ih _ h1.2]
  refine ⟨hmain ops st h, ?_⟩
  rw [hmain ops st h]
  exact (List.nodup_range' _ _).map fun a b hab => JsValue.vNum.inj hab

/-- C1 witness: two creates around a delete, from the initial state, return
ids 1 and 2 — consecutive, distinct, in call order. -/
theorem c1_create_ids_consecutive_distinct_witness :
    (createdRecords initialState
        [Op.create [] 0, Op.delete (JsValue.vNum 1), Op.create [] 5]).map
        (fun r => getProp r "id") =
      (List.range' initialState.nextId
        (numCreates [Op.create [] 0, Op.delete (JsValue.vNum 1), Op.create [] 5])).map
        JsValue.vNum ∧
    ((createdRecords initialState
        [Op.create [] 0, Op.delete (JsValue.vNum 1), Op.create [] 5]).map
        (fun r => getProp r "id")).Nodup :=
  c1_create_ids_consecutive_distinct initialState
    [Op.create [] 0, Op.delete (JsValue.vNum 1), Op.create [] 5] (by decide)

/-- C1 counterexample: with arbitrary field maps the claim fails — a second
create whose map carries `id: 1` returns id 1 again (`...userData` overwrites
the freshly allocated `id`), so the two returned ids are 1, 1: neither
distinct nor consecutive. -/
theorem c1_create_ids_counterexample :
    (createdRecords initialState
        [Op.create [] 0, Op.create [("id", JsValue.vNum 1)] 1]).map
        (fun r => getProp r "id") = [JsValue.vNum 1, JsValue.vNum 1] ∧
    ¬ ((createdRecords initialState
        [Op.create [] 0, Op.create [("id", JsValue.vNum 1)] 1]).map
        (fun r => getProp r "id")).Nodup := by
  constructor
  · decide
  · decide

/-- C4 (amended: update field maps must not supply a `"createdAt"` property
and create field maps no `"id"` property, since the JS spreads let such maps
overwrite those fields — see the counterexample).  Over any such operation
sequence with non-decreasing clock reads, a record stored under key `k` in a
well-formed store keeps its `"createdAt"` value, and its `"updatedAt"`
instant never decreases. -/
theorem c4_createdAt_fixed_updatedAt_monotone (st : StoreState) (ops : List Op)
    (t : Nat) (k : JsValue) (r r' : Obj)
    (hwf : StoreWF st) (ht : storeTimesOk t st = true)
    (hops : ops.all opOk = true) (htimes : timesFrom t ops = true)
    (hr : JsMap.get st.users k = some r)
    (hr' : JsMap.get (runOps st ops).users k = some r') :
    JsMap.get r' "createdAt" = JsMap.get r "createdAt" ∧
      ∃ u u', updatedAtVal r = some u ∧ updatedAtVal r' = some u' ∧ u ≤ u' := by
  induction ops generalizing st t r with
  | nil =>
      rw [runOps_nil, hr] at hr'
      cases hr'
      have hu := (storeTimesOk_iff t st).mp ht _ (JsMap.mem_of_get_eq_some hr)
      obtain ⟨u, hu', _⟩ := updatedAtLe_iff.mp hu
      exact ⟨rfl, u, u, hu', hu', Nat.le_refl u⟩
  | cons op rest ih =>
      rw [List.all_cons, Bool.and_eq_true] at hops
      rw [runOps_cons] at hr'
      obtain ⟨t1, h1, ht1, htimes1⟩ := times_step_pack htimes ht
      have hwf1 := StoreWF_step (createNoId_of_opOk hops.1) hwf
      have hu : updatedAtLe t r = true :=
        (storeTimesOk_iff t st).mp ht _ (JsMap.mem_of_get_eq_some hr)
      cases hk1 : JsMap.get (stepOp st op).users k with
      | none =>
          have hb : keyBelowB (stepOp st op).nextId k = true :=
            keyBelowB_mono (stepOp_nextId_le st op)
              ((storeKeysOk_iff st).mp hwf.1 _ (JsMap.mem_keys_of_get_eq_some hr))
          rw [absent_run hb (all_createNoId_of_opOk hops.2) hk1] at hr'
          cases hr'
      | some r1 =>
          have hstep := present_step hwf hops.1 h1 hu hr hk1
          have hrest := ih (stepOp st op) t1 r1 hwf1 ht1 hops.2 htimes1 hk1 hr'
          refine ⟨hrest.1.trans hstep.1, ?_⟩
          obtain ⟨u, hu', _⟩ := updatedAtLe_iff.mp hu
          obtain ⟨u1, hu1, hle1⟩ := hstep.2 u hu'
          obtain ⟨u1', u', hu1', hu'', hle2⟩ := hrest.2
          rw [hu1] at hu1'
          cases hu1'
          exact ⟨u, u', hu', hu'', hle1.trans hle2⟩

/-- C4 witness: the record created at instant 0 keeps `createdAt` and moves
`updatedAt` from 0 to 3 under an update at instant 3. -/
theorem c4_createdAt_fixed_updatedAt_monotone_witness :
    JsMap.get
        [("id", JsValue.vNum 1), ("createdAt", JsValue.vNum 0),
          ("updatedAt", JsValue.vNum 3), ("email", JsValue.vStr "y")] "createdAt" =
      JsMap.get
        [("id", JsValue.vNum 1), ("createdAt", JsValue.vNum 0),
          ("updatedAt", JsValue.vNum 0)] "createdAt" ∧
    ∃ u u',
      updatedAtVal
          [("id", JsValue.vNum 1), ("createdAt", JsValue.vNum 0),
            ("updatedAt", JsValue.vNum 0)] = some u ∧
      updatedAtVal
          [("id", JsValue.vNum 1), ("createdAt", JsValue.vNum 0),
            ("updatedAt", JsValue.vNum 3), ("email", JsValue.vStr "y")] = some u' ∧
      u ≤ u' :=
  c4_createdAt_fixed_updatedAt_monotone
    (createUser [] 0 initialState).2
    [Op.update (JsValue.vNum 1) [("email", JsValue.vStr "y")] 3]
    0 (JsValue.vNum 1)
    [("id", JsValue.vNum 1), ("createdAt", JsValue.vNum 0),
      ("updatedAt", JsValue.vNum 0)]
    [("id", JsValue.vNum 1), ("createdAt", JsValue.vNum 0),
      ("updatedAt", JsValue.vNum 3), ("email", JsValue.vStr "y")]
    (by constructor <;> decide) (by decide) (by decide) (by decide)
    (by decide) (by decide)

/-- C4 counterexample: with an arbitrary update field map the claim fails —
updating record 1 with `\x7b createdAt: 99 \x7d` at instant 5 changes its
`createdAt` from 0 to 99 (`...userData` overwrites it; only `updatedAt` is
re-stamped after the spread). -/
theorem c4_createdAt_counterexample :
    (getUserById (JsValue.vNum 1) (createUser [] 0 initialState).2).map
        (fun r => JsMap.get r "createdAt") = some (some (JsValue.vNum 0)) ∧
    (getUserById (JsValue.vNum 1)
        (updateUser (JsValue.vNum 1) [("createdAt", JsValue.vNum 99)] 5
          (createUser [] 0 initialState).2).2).map
        (fun r => JsMap.get r "createdAt") = some (some (JsValue.vNum 99)) := by
  constructor
  · decide
  · decide

/-- C5: on a present id, `updateUser` returns `ok` of the merged record and
stores it under the same id without touching the counter; the merged record
is the shallow per-key merge (a key supplied by `userData` wins, any other
key keeps the existing value) except that `updatedAt` is re-stamped to the
call instant.  The `Nodup` hypothesis says `userData` is a runtime JS
object, whose property keys are necessarily distinct.  The second conjunct is the spec's concrete scenario: create
`\x7b name: "a", email: "x" \x7d` at instant 0, update with
`\x7b email: "y" \x7d` at the later instant 1 — name stays `"a"`, email
becomes `"y"`, `createdAt` stays 0 and `updatedAt` becomes 1 > 0. -/
theorem c5_update_shallow_merge (st : StoreState) (id : JsValue) (userData : Obj)
    (now : Nat) (user : Obj) (hn : (JsMap.keys userData).Nodup)
    (h : JsMap.get st.users id = some user) :
    ((updateUser id userData now st).1 =
        Except.ok (JsMap.set (spread user userData) "updatedAt" (JsValue.vNum now)) ∧
      (updateUser id userData now st).2.users =
        JsMap.set st.users id
          (JsMap.set (spread user userData) "updatedAt" (JsValue.vNum now)) ∧
      (updateUser id userData now st).2.nextId = st.nextId ∧
      JsMap.get (JsMap.set (spread user userData) "updatedAt" (JsValue.vNum now))
          "updatedAt" = some (JsValue.vNum now) ∧
      ∀ k1 : String, k1 ≠ "updatedAt" →
        JsMap.get (JsMap.set (spread user userData) "updatedAt" (JsValue.vNum now)) k1 =
          match JsMap.get userData k1 with
          | some v => some v
          | none => JsMap.get user k1) ∧
    ((updateUser (JsValue.vNum 1) [("email", JsValue.vStr "y")] 1
        (createUser [("name", JsValue.vStr "a"), ("email", JsValue.vStr "x")] 0
          initialState).2).1 =
      Except.ok
        [("id", JsValue.vNum 1), ("name", JsValue.vStr "a"),
          ("email", JsValue.vStr "y"), ("createdAt", JsValue.vNum 0),
          ("updatedAt", JsValue.vNum 1)] ∧
      (0 : Nat) < 1) := by
  refine ⟨⟨?_, ?_, ?_, ?_, ?_⟩, by rfl, by decide⟩
  · rw [updateUser_present h]
  · rw [updateUser_users_present h]
  · rw [updateUser, h]
  · exact JsMap.get_set_self _ _ _
  · intro k1 hk1
    rw [JsMap.get_set_ne _ _ _ hk1]
    cases hg : JsMap.get userData k1 with
    | none => exact get_spread_of_none _ hg
    | some v => exact get_spread_of_some _ hn hg

/-- C5 witness: the theorem applied to the spec's concrete scenario (the
record created from `\x7b name: "a", email: "x" \x7d` at instant 0, updated
with `\x7b email: "y" \x7d` at instant 1). -/
theorem c5_update_shallow_merge_witness :
    ((updateUser (JsValue.vNum 1) [("email", JsValue.vStr "y")] 1
        (createUser [("name", JsValue.vStr "a"), ("email", JsValue.vStr "x")] 0
          initialState).2).1 =
        Except.ok
          (JsMap.set
            (spread
              [("id", JsValue.vNum 1), ("name", JsValue.vStr "a"),
                ("email", JsValue.vStr "x"), ("createdAt", JsValue.vNum 0),
                ("updatedAt", JsValue.vNum 0)]
              [("email", JsValue.vStr "y")])
            "updatedAt" (JsValue.vNum 1)) ∧
      (updateUser (JsValue.vNum 1) [("email", JsValue.vStr "y")] 1
        (createUser [("name", JsValue.vStr "a"), ("email", JsValue.vStr "x")] 0
          initialState).2).2.users =
        JsMap.set
          (createUser [("name", JsValue.vStr "a"), ("email", JsValue.vStr "x")] 0
            initialState).2.users
          (JsValue.vNum 1)
          (JsMap.set
            (spread
              [("id", JsValue.vNum 1), ("name", JsValue.vStr "a"),
                ("email", JsValue.vStr "x"), ("createdAt", JsValue.vNum 0),
                ("updatedAt", JsValue.vNum 0)]
              [("email", JsValue.vStr "y")])
            "updatedAt" (JsValue.vNum 1)) ∧
      (updateUser (JsValue.vNum 1) [("email", JsValue.vStr "y")] 1
        (createUser [("name", JsValue.vStr "a"), ("email", JsValue.vStr "x")] 0
          initialState).2).2.nextId =
        (createUser [("name", JsValue.vStr "a"), ("email", JsValue.vStr "x")] 0
          initialState).2.nextId ∧
      JsMap.get
          (JsMap.set
            (spread
              [("id", JsValue.vNum 1), ("name", JsValue.vStr "a"),
                ("email", JsValue.vStr "x"), ("createdAt", JsValue.vNum 0),
                ("updatedAt", JsValue.vNum 0)]
              [("email", JsValue.vStr "y")])
            "updatedAt" (JsValue.vNum 1)) "updatedAt" = some (JsValue.vNum 1) ∧
      (∀ k1 : String, k1 ≠ "updatedAt" →
        JsMap.get
            (JsMap.set
              (spread
                [("id", JsValue.vNum 1), ("name", JsValue.vStr "a"),
                  ("email", JsValue.vStr "x"), ("createdAt", JsValue.vNum 0),
                  ("updatedAt", JsValue.vNum 0)]
                [("email", JsValue.vStr "y")])
              "updatedAt" (JsValue.vNum 1)) k1 =
          match JsMap.get [("email", JsValue.vStr "y")] k1 with
          | some v => some v
          | none =>
              JsMap.get
                [("id", JsValue.vNum 1), ("name", JsValue.vStr "a"),
                  ("email", JsValue.vStr "x"), ("createdAt", JsValue.vNum 0),
                  ("updatedAt", JsValue.vNum 0)] k1)) ∧
    ((updateUser (JsValue.vNum 1) [("email", JsValue.vStr "y")] 1
        (createUser [("name", JsValue.vStr "a"), ("email", JsValue.vStr "x")] 0
          initialState).2).1 =
      Except.ok
        [("id", JsValue.vNum 1), ("name", JsValue.vStr "a"),
          ("email", JsValue.vStr "y"), ("createdAt", JsValue.vNum 0),
          ("updatedAt", JsValue.vNum 1)] ∧
      (0 : Nat) < 1) :=
  c5_update_shallow_merge
    (createUser [("name", JsValue.vStr "a"), ("email", JsValue.vStr "x")] 0
      initialState).2
    (JsValue.vNum 1) [("email", JsValue.vStr "y")] 1
    [("id", JsValue.vNum 1), ("name", JsValue.vStr "a"),
      ("email", JsValue.vStr "x"), ("createdAt", JsValue.vNum 0),
      ("updatedAt", JsValue.vNum 0)]
    (by decide) (by decide)

/-- C6: `getUserById` returns nothing exactly when the id is not a key of the
store (the route handler maps that to a 404); `updateUser` and `deleteUser`
return the error `"User not found"` exactly when the id is absent, and on a
present id they return a success value rather than an error. -/
theorem c6_not_found_iff_absent (st : StoreState) (id : JsValue) (userData : Obj)
    (now : Nat) :
    (getUserById id st = none ↔ id ∉ JsMap.keys st.users) ∧
    ((updateUser id userData now st).1 = Except.error "User not found" ↔
      id ∉ JsMap.keys st.users) ∧
    ((deleteUser id st).1 = Except.error "User not found" ↔
      id ∉ JsMap.keys st.users) ∧
    (id ∈ JsMap.keys st.users →
      (∃ r, (updateUser id userData now st).1 = Except.ok r) ∧
        (deleteUser id st).1 = Except.ok ()) := by
  cases hg : JsMap.get st.users id with
  | none =>
      have habs : id ∉ JsMap.keys st.users := (JsMap.get_eq_none_iff _ _).mp hg
      refine ⟨?_, ?_, ?_, fun hmem => absurd hmem habs⟩
      · rw [getUserById, hg]; simp [habs]
      · rw [updateUser_absent hg]; simp [habs]
      · rw [deleteUser_absent hg]; simp [habs]
  | some user =>
      have hmem : id ∈ JsMap.keys st.users := JsMap.mem_keys_of_get_eq_some hg
      refine ⟨?_, ?_, ?_, fun _ => ⟨⟨_, by rw [updateUser_present hg]⟩,
        by rw [deleteUser_present hg]⟩⟩
      · rw [getUserById, hg]; simp [hmem]
      · rw [updateUser_present hg]; simp [hmem]
      · rw [deleteUser_present hg]; simp [hmem]

/-- C9: when the id is absent, `updateUser` and `deleteUser` return the
`"User not found"` error and leave the whole store state — record map and
counter — exactly as it was. -/
theorem c9_failed_mutation_is_frame (st : StoreState) (id : JsValue)
    (userData : Obj) (now : Nat) (h : JsMap.get st.users id = none) :
    updateUser id userData now st = (Except.error "User not found", st) ∧
    deleteUser id st = (Except.error "User not found", st) :=
  ⟨updateUser_absent h userData now, deleteUser_absent h⟩

/-- C9 witness: updating or deleting id 0 (never issued) on the initial
store fails and leaves the state untouched. -/
theorem c9_failed_mutation_is_frame_witness :
    updateUser (JsValue.vNum 0) [] 7 initialState =
      (Except.error "User not found", initialState) ∧
    deleteUser (JsValue.vNum 0) initialState =
      (Except.error "User not found", initialState) :=
  c9_failed_mutation_is_frame initialState (JsValue.vNum 0) [] 7 (by decide)

/-- The middleware's lazily initialised array for `key`: the stored one, or
the freshly inserted empty array. -/
theorem rl_lazy_get (st : RateLimiterState) (key : String) :
    JsMap.get
        (if JsMap.has st.requests key then st.requests
          else JsMap.set st.requests key []) key =
      some ((JsMap.get st.requests key).getD []) := by
  cases hg : JsMap.get st.requests key with
  | none =>
      rw [JsMap.has, hg]
      simp [JsMap.get_set_self]
  | some l =>
      rw [JsMap.has, hg]
      simp [hg]

/-- C2: one middleware call admits exactly when fewer than `max` stored
instants survive the prune (those strictly inside the window); an instant
exactly at `now - windowMs` never survives it; and an admitted call persists
the pruned sequence with `now` appended. -/
theorem c2_admit_iff_window_count (windowMs max : Int) (key : String) (now : Int)
    (st : RateLimiterState) :
    ((rateLimiterCall windowMs max key now st).1 = true ↔
      ((((JsMap.get st.requests key).getD []).filter
          (fun time => now - windowMs < time)).length : Int) < max) ∧
    (now - windowMs) ∉
      ((JsMap.get st.requests key).getD []).filter
        (fun time => now - windowMs < time) ∧
    ((rateLimiterCall windowMs max key now st).1 = true →
      JsMap.get (rateLimiterCall windowMs max key now st).2.requests key =
        some ((((JsMap.get st.requests key).getD []).filter
          (fun time => now - windowMs < time)) ++ [now])) := by
  have hlz := rl_lazy_get st key
  refine ⟨?_, ?_, ?_⟩
  · by_cases hcond : max ≤
        ((((JsMap.get st.requests key).getD []).filter
          (fun time => now - windowMs < time)).length : Int)
    · simp only [rateLimiterCall, hlz, Option.getD_some, if_pos hcond]
      constructor
      · intro h; cases h
      · intro h; omega
    · simp only [rateLimiterCall, hlz, Option.getD_some, if_neg hcond]
      constructor
      · intro _; omega
      · intro _; trivial
  · simp [List.mem_filter]
  · intro hadm
    by_cases hcond : max ≤
        ((((JsMap.get st.requests key).getD []).filter
          (fun time => now - windowMs < time)).length : Int)
    · simp only [rateLimiterCall, hlz, Option.getD_some, if_pos hcond] at hadm
      cases hadm
    · simp only [rateLimiterCall, hlz, Option.getD_some, if_neg hcond]
      exact JsMap.get_set_self _ _ _

theorem rlBounded_lazy {max : Int} {st : RateLimiterState} (key : String)
    (hmax : 0 ≤ max) (hb : rlBounded max st) :
    rlBounded max
      ⟨if JsMap.has st.requests key then st.requests
        else JsMap.set st.requests key []⟩ := by
  intro e he
  by_cases hh : JsMap.has st.requests key
  · rw [if_pos hh] at he; exact hb e he
  · rw [if_neg hh] at he
    rcases JsMap.mem_set he with he | he
    · rw [he]; simpa using hmax
    · exact hb e he

theorem rlBounded_step {windowMs max : Int} {key : String} {now : Int}
    {st : RateLimiterState} (hmax : 0 ≤ max) (hb : rlBounded max st) :
    rlBounded max (rateLimiterCall windowMs max key now st).2 := by
  have hlz := rl_lazy_get st key
  have hb1 := rlBounded_lazy key hmax hb
  by_cases hcond : max ≤
      ((((JsMap.get st.requests key).getD []).filter
        (fun time => now - windowMs < time)).length : Int)
  · have h2 : (rateLimiterCall windowMs max key now st).2 =
        ⟨if JsMap.has st.requests key then st.requests
          else JsMap.set st.requests key []⟩ := by
      simp only [rateLimiterCall, hlz, Option.getD_some, if_pos hcond]
    rw [h2]
    exact hb1
  · have h2 : (rateLimiterCall windowMs max key now st).2 =
        ⟨JsMap.set
          (if JsMap.has st.requests key then st.requests
            else JsMap.set st.requests key [])
          key
          ((((JsMap.get st.requests key).getD []).filter
            (fun time => now - windowMs < time)) ++ [now])⟩ := by
      simp only [rateLimiterCall, hlz, Option.getD_some, if_neg hcond]
    rw [h2]
    intro e he
    rcases JsMap.mem_set he with he | he
    · rw [he]
      simp only [List.length_append, List.length_singleton]
      push_cast
      omega
    · exact hb1 e he

theorem rlBounded_run (windowMs max : Int) (calls : List (String × Int))
    (hmax : 0 ≤ max) :
    rlBounded max (rateLimiterRun windowMs max ⟨[]⟩ calls) := by
  have hgen : ∀ cs st, rlBounded max st →
      rlBounded max (rateLimiterRun windowMs max st cs) := by
    intro cs
    induction cs with
    | nil => intro st h; exact h
    | cons c rest ih => intro st h; exact ih _ (rlBounded_step hmax h)
  refine hgen calls ⟨[]⟩ ?_
  intro e he
  cases he

theorem rl_reject_persists_of_bounded {windowMs max : Int} {key : String}
    {now : Int} {st : RateLimiterState} (hmax : 0 ≤ max) (hb : rlBounded max st)
    (hrej : (rateLimiterCall windowMs max key now st).1 = false) :
    JsMap.get (rateLimiterCall windowMs max key now st).2.requests key =
      some (((JsMap.get st.requests key).getD []).filter
        (fun time => now - windowMs < time)) := by
  have hlz := rl_lazy_get st key
  by_cases hcond : max ≤
      ((((JsMap.get st.requests key).getD []).filter
        (fun time => now - windowMs < time)).length : Int)
  · have h2 : (rateLimiterCall windowMs max key now st).2 =
        ⟨if JsMap.has st.requests key then st.requests
          else JsMap.set st.requests key []⟩ := by
      simp only [rateLimiterCall, hlz, Option.getD_some, if_pos hcond]
    rw [h2]
    have hlen : ((((JsMap.get st.requests key).getD []).length : Int)) ≤ max := by
      cases hg : JsMap.get st.requests key with
      | none => simpa using hmax
      | some l =>
          simp only [Option.getD_some]
          exact hb (key, l) (JsMap.mem_of_get_eq_some hg)
    have hfle := List.length_filter_le (fun time => now - windowMs < time)
      ((JsMap.get st.requests key).getD [])
    have hflen : (((JsMap.get st.requests key).getD []).filter
        (fun time => now - windowMs < time)).length =
        ((JsMap.get st.requests key).getD []).length := by omega
    rw [hlz, List.filter_eq_self.mpr (List.filter_length_eq_length.mp hflen)]
  · have h1 : (rateLimiterCall windowMs max key now st).1 = true := by
      simp only [rateLimiterCall, hlz, Option.getD_some, if_neg hcond]
    rw [h1] at hrej
    cases hrej

/-- C3: along any execution of the middleware from its initial empty map,
a rejecting call leaves, for the rejected key, exactly the pruned sequence
(entries at or before `now - windowMs` removed, nothing appended).  The code
keeps the pre-prune array on rejection, but a stored array never exceeds
`max` entries, so a rejection (at least `max` survivors) can only happen
when the prune removes nothing and the two sequences coincide. -/
theorem c3_reject_persists_pruned (windowMs max : Int) (calls : List (String × Int))
    (key : String) (now : Int) (hmax : 0 ≤ max)
    (hrej : (rateLimiterCall windowMs max key now
      (rateLimiterRun windowMs max ⟨[]⟩ calls)).1 = false) :
    JsMap.get (rateLimiterCall windowMs max key now
        (rateLimiterRun windowMs max ⟨[]⟩ calls)).2.requests key =
      some (((JsMap.get (rateLimiterRun windowMs max ⟨[]⟩ calls).requests
          key).getD []).filter (fun time => now - windowMs < time)) :=
  rl_reject_persists_of_bounded hmax (rlBounded_run windowMs max calls hmax) hrej

/-- C3 witness: with a 1000ms window and `max = 1`, after an admitted call at
instant 0, the call at instant 500 is rejected and the persisted sequence for
the key equals the pruned sequence. -/
theorem c3_reject_persists_pruned_witness :
    (0 : Int) ≤ 1 ∧
    (rateLimiterCall 1000 1 "c" 500 (rateLimiterRun 1000 1 ⟨[]⟩ [("c", 0)])).1 =
      false ∧
    JsMap.get (rateLimiterCall 1000 1 "c" 500
        (rateLimiterRun 1000 1 ⟨[]⟩ [("c", 0)])).2.requests "c" =
      some (((JsMap.get (rateLimiterRun 1000 1 ⟨[]⟩ [("c", 0)]).requests
          "c").getD []).filter (fun time => (500 : Int) - 1000 < time)) :=
  ⟨by decide, by decide,
    c3_reject_persists_pruned 1000 1 [("c", 0)] "c" 500 (by decide) (by decide)⟩

/-- One step of the store preserves the strictly-increasing key order (when
the create carries no `"id"` key, so the new entry is appended with the
largest key so far). -/
theorem storeOrdered_step {st : StoreState} {op : Op} (hop : createNoId op = true)
    (h : storeOrdered st) : storeOrdered (stepOp st op) := by
  refine ⟨storeKeysOk_step hop h.1, ?_⟩
  cases op with
  | create userData now =>
      rw [createNoId, Option.isNone_iff_eq_none] at hop
      rw [stepOp, createUser_users_of_noId hop,
        JsMap.keys_set_of_not_mem _ (nextId_key_not_mem h.1), List.pairwise_append]
      refine ⟨h.2, List.pairwise_singleton _ _, ?_⟩
      intro a ha b hb
      simp only [List.mem_singleton] at hb
      subst hb
      have hbk := (storeKeysOk_iff st).mp h.1 _ ha
      cases a with
      | vNum n =>
          simp only [keyBelowB, decide_eq_true_eq] at hbk
          simp only [keyLtB, decide_eq_true_eq]
          exact hbk
      | vStr s => cases hbk
      | vUndefined => cases hbk
  | update id userData now =>
      cases hg : JsMap.get st.users id with
      | none => rw [stepOp, updateUser_absent hg]; exact h.2
      | some user =>
          rw [stepOp, updateUser_users_present hg,
            JsMap.keys_set_of_mem _ (JsMap.mem_keys_of_get_eq_some hg)]
          exact h.2
  | delete id =>
      cases hg : JsMap.get st.users id with
      | none => rw [stepOp, deleteUser_absent hg]; exact h.2
      | some user =>
          rw [stepOp, deleteUser_users_present hg]
          exact h.2.sublist ((JsMap.del_sublist st.users id).map Prod.fst)

theorem storeOrdered_run (ops : List Op) :
    ∀ st, storeOrdered st → ops.all createNoId = true →
      storeOrdered (runOps st ops) := by
  induction ops with
  | nil => intro st h _; exact h
  | cons op rest ih =>
      intro st h hops
      rw [List.all_cons, Bool.and_eq_true] at hops
      rw [runOps_cons]
      exact ih _ (storeOrdered_step hops.1 h) hops.2

/-- C7 (amended: creates must not supply an `"id"` key, since a create whose
map collides with an existing id replaces that entry in place and the list is
then no longer in creation order — see the counterexample).  `getAllUsers`
returns exactly the stored records in map order, leaves the state unchanged,
and two consecutive calls return equal sequences; and from the initial state,
under `"id"`-free creates, the map order has strictly increasing ids — the
entries appear in the order their records were created. -/
theorem c7_list_all_ordered_idempotent (st : StoreState) (ops : List Op) :
    (getAllUsers st).1 = st.users.map Prod.snd ∧
    (getAllUsers st).2 = st ∧
    (getAllUsers ((getAllUsers st).2)).1 = (getAllUsers st).1 ∧
    storeOrdered initialState ∧
    (storeOrdered st → ops.all createNoId = true → storeOrdered (runOps st ops)) :=
  ⟨rfl, rfl, rfl, ⟨rfl, List.Pairwise.nil⟩,
    fun hord hops => storeOrdered_run ops st hord hops⟩

/-- C7 counterexample: with arbitrary field maps the ordering claim fails —
after `create \x7b\x7d` (instant 0), `create \x7b\x7d` (instant 1) and
`create \x7b id: 1 \x7d` (instant 2), the list holds the record created at
instant 2 before the record created at instant 1: the third create replaced
entry 1 in place, so `list()` is not ordered by record creation. -/
theorem c7_insertion_order_counterexample :
    (getAllUsers (runOps initialState
        [Op.create [] 0, Op.create [] 1,
          Op.create [("id", JsValue.vNum 1)] 2])).1.map
        (fun r => JsMap.get r "createdAt") =
      [some (JsValue.vNum 2), some (JsValue.vNum 1)] ∧
    ¬ List.Pairwise (fun a b => keyLtB a b = true)
        ((getAllUsers (runOps initialState
          [Op.create [] 0, Op.create [] 1,
            Op.create [("id", JsValue.vNum 1)] 2])).1.map
          (fun r => getProp r "createdAt")) := by
  constructor
  · decide
  · decide

/-! ### The validation predicates -/

theorem allOk_cons {c : Char} {cs : List Char} :
    allOk (c :: cs) = true ↔ okChar c = true ∧ allOk cs = true := by
  simp [allOk, List.all_cons, Bool.and_eq_true]

theorem dotThen_iff (cs : List Char) :
    dotThen cs = true ↔
      ∃ d1 d2, cs = d1 ++ '.' :: d2 ∧ allOk d1 = true ∧ d2 ≠ [] ∧
        allOk d2 = true := by
  induction cs with
  | nil =>
      rw [dotThen]
      simp only [Bool.false_eq_true, false_iff]
      rintro ⟨d1, d2, h, -⟩
      simp at h
  | cons c rest ih =>
      rw [dotThen]
      constructor
      · intro h
        rw [Bool.or_eq_true] at h
        rcases h with h | h
        · rw [Bool.and_eq_true] at h
          obtain ⟨h12, hok⟩ := h
          rw [Bool.and_eq_true] at h12
          obtain ⟨hc, hne⟩ := h12
          rw [beq_iff_eq] at hc
          subst hc
          refine ⟨[], rest, rfl, rfl, ?_, hok⟩
          intro hnil
          subst hnil
          simp at hne
        · rw [Bool.and_eq_true] at h
          obtain ⟨hc, hd⟩ := h
          obtain ⟨d1, d2, heq, h1, h2, h3⟩ := ih.mp hd
          exact ⟨c :: d1, d2, by rw [heq]; rfl, allOk_cons.mpr ⟨hc, h1⟩, h2, h3⟩
      · rintro ⟨d1, d2, heq, h1, h2, h3⟩
        rcases d1 with - | ⟨e, d1'⟩
        · simp only [List.nil_append, List.cons.injEq] at heq
          obtain ⟨hc, hrest⟩ := heq
          subst hc
          subst hrest
          rw [Bool.or_eq_true]
          left
          cases rest with
          | nil => exact absurd rfl h2
          | cons x xs => simp_all
        · simp only [List.cons_append, List.cons.injEq] at heq
          obtain ⟨hc, hrest⟩ := heq
          subst hc
          obtain ⟨he, h1'⟩ := allOk_cons.mp h1
          rw [Bool.or_eq_true]
          right
          rw [Bool.and_eq_true]
          exact ⟨he, ih.mpr ⟨d1', d2, hrest, h1', h2, h3⟩⟩

theorem domainMatch_iff (cs : List Char) :
    domainMatch cs = true ↔
      ∃ d1 d2, cs = d1 ++ '.' :: d2 ∧ d1 ≠ [] ∧ allOk d1 = true ∧ d2 ≠ [] ∧
        allOk d2 = true := by
  cases cs with
  | nil =>
      rw [domainMatch]
      simp only [Bool.false_eq_true, false_iff]
      rintro ⟨d1, d2, h, -⟩
      simp at h
  | cons c rest =>
      rw [domainMatch]
      constructor
      · intro h
        rw [Bool.and_eq_true] at h
        obtain ⟨hc, hd⟩ := h
        obtain ⟨d1, d2, heq, h1, h2, h3⟩ := (dotThen_iff rest).mp hd
        refine ⟨c :: d1, d2, by rw [heq]; rfl, by simp, allOk_cons.mpr ⟨hc, h1⟩,
          h2, h3⟩
      · rintro ⟨d1, d2, heq, hne, h1, h2, h3⟩
        rcases d1 with - | ⟨e, d1'⟩
        · exact absurd rfl hne
        · simp only [List.cons_append, List.cons.injEq] at heq
          obtain ⟨hc, hrest⟩ := heq
          subst hc
          obtain ⟨he, h1'⟩ := allOk_cons.mp h1
          rw [Bool.and_eq_true]
          exact ⟨he, (dotThen_iff rest).mpr ⟨d1', d2, hrest, h1', h2, h3⟩⟩

theorem okChar_at : okChar '@' = false := rfl

theorem localThen_iff (cs : List Char) :
    localThen cs = true ↔
      ∃ l rest, cs = l ++ '@' :: rest ∧ allOk l = true ∧
        domainMatch rest = true := by
  induction cs with
  | nil =>
      rw [localThen]
      simp only [Bool.false_eq_true, false_iff]
      rintro ⟨l, rest, h, -⟩
      simp at h
  | cons c rest ih =>
      rw [localThen]
      constructor
      · intro h
        rw [Bool.or_eq_true] at h
        rcases h with h | h
        · rw [Bool.and_eq_true] at h
          obtain ⟨hc, hd⟩ := h
          rw [beq_iff_eq] at hc
          subst hc
          exact ⟨[], rest, rfl, rfl, hd⟩
        · rw [Bool.and_eq_true] at h
          obtain ⟨hc, hd⟩ := h
          obtain ⟨l, r, heq, h1, h2⟩ := ih.mp hd
          exact ⟨c :: l, r, by rw [heq]; rfl, allOk_cons.mpr ⟨hc, h1⟩, h2⟩
      · rintro ⟨l, r, heq, h1, h2⟩
        rcases l with - | ⟨e, l'⟩
        · simp only [List.nil_append, List.cons.injEq] at heq
          obtain ⟨hc, hrest⟩ := heq
          subst hc
          subst hrest
          rw [Bool.or_eq_true]
          left
          simp [h2]
        · simp only [List.cons_append, List.cons.injEq] at heq
          obtain ⟨hc, hrest⟩ := heq
          subst hc
          obtain ⟨he, h1'⟩ := allOk_cons.mp h1
          rw [Bool.or_eq_true]
          right
          rw [Bool.and_eq_true]
          exact ⟨he, ih.mpr ⟨l', r, hrest, h1', h2⟩⟩

theorem validateEmail_iff (s : String) :
    validateEmail s = true ↔ EmailShape s := by
  rw [EmailShape]
  cases hs : s.toList with
  | nil =>
      rw [show validateEmail s = false from by rw [validateEmail, hs]]
      simp only [Bool.false_eq_true, false_iff]
      rintro ⟨l, d1, d2, h, -⟩
      simp at h
  | cons c rest =>
      rw [show validateEmail s = (okChar c && localThen rest) from by
        rw [validateEmail, hs]]
      constructor
      · intro h
        rw [Bool.and_eq_true] at h
        obtain ⟨hc, hd⟩ := h
        obtain ⟨l, r, heq, h1, h2⟩ := (localThen_iff rest).mp hd
        obtain ⟨d1, d2, heq2, hd1, hok1, hd2, hok2⟩ := (domainMatch_iff r).mp h2
        refine ⟨c :: l, d1, d2, ?_, by simp, allOk_cons.mpr ⟨hc, h1⟩, hd1, hok1,
          hd2, hok2⟩
        rw [heq, heq2]
        rfl
      · rintro ⟨l, d1, d2, heq, hlne, hlok, hd1, hok1, hd2, hok2⟩
        rcases l with - | ⟨e, l'⟩
        · exact absurd rfl hlne
        · simp only [List.cons_append, List.cons.injEq] at heq
          obtain ⟨hc, hrest⟩ := heq
          subst hc
          obtain ⟨he, hlok'⟩ := allOk_cons.mp hlok
          rw [Bool.and_eq_true]
          refine ⟨he, (localThen_iff rest).mpr ⟨l', d1 ++ '.' :: d2, hrest, hlok',
            (domainMatch_iff _).mpr ⟨d1, d2, rfl, hd1, hok1, hd2, hok2⟩⟩⟩

/-- C8 (amended: the two length bounds count UTF-16 code units — what JS
`string.length` measures — not characters; the two notions differ on
supplementary-plane characters, see the counterexample).  The three
`ValidationUtils` predicates are pure functions of their string argument:
`validateEmail` accepts exactly the strings of shape `local@domain.tld`
(non-empty local and domain pieces over `[^\s@]`, with a dot splitting the
domain into non-empty pieces), `validateUsername` accepts exactly the
present strings of UTF-16 length 3 to 50, `validatePassword` exactly the
present strings of UTF-16 length at least 8 — together with the spec's six
concrete examples. -/
theorem c8_validation_predicates :
    (∀ s, validateEmail s = true ↔ EmailShape s) ∧
    (∀ s : String, validateUsername s = true ↔
      (s ≠ "" ∧ 3 ≤ utf16Length s ∧ utf16Length s ≤ 50)) ∧
    (∀ s : String, validatePassword s = true ↔ (s ≠ "" ∧ 8 ≤ utf16Length s)) ∧
    validateEmail "a@b.co" = true ∧
    validateEmail "a@b" = false ∧
    validateUsername "ab" = false ∧
    validateUsername "abc" = true ∧
    validatePassword "1234567" = false ∧
    validatePassword "12345678" = true := by
  refine ⟨validateEmail_iff, ?_, ?_, by decide, by decide, by decide, by decide,
    by decide, by decide⟩
  · intro s
    rw [validateUsername]
    simp [Bool.and_eq_true, and_assoc]
  · intro s
    rw [validatePassword]
    simp [Bool.and_eq_true]

/-- C8 counterexample: the length checks do not count characters.  The
string of U+1F600 followed by `a` has 2 characters — outside `[3, 50]` — yet
its JS length is 3 and `validateUsername` accepts it; four U+1F600 are 4
characters but JS length 8, and `validatePassword` accepts them. -/
theorem c8_utf16_length_counterexample :
    validateUsername (String.mk [Char.ofNat 0x1f600, 'a']) = true ∧
    (String.mk [Char.ofNat 0x1f600, 'a']).length = 2 ∧
    ¬ (3 ≤ (String.mk [Char.ofNat 0x1f600, 'a']).length) ∧
    validatePassword (String.mk [Char.ofNat 0x1f600, Char.ofNat 0x1f600,
      Char.ofNat 0x1f600, Char.ofNat 0x1f600]) = true ∧
    (String.mk [Char.ofNat 0x1f600, Char.ofNat 0x1f600, Char.ofNat 0x1f600,
      Char.ofNat 0x1f600]).length = 4 := by
  refine ⟨?_, ?_, ?_, ?_, ?_⟩ <;> decide

/-- C10: whatever the caller's field map — even one carrying `createdAt` or
`updatedAt` keys — the record returned by `createUser` has both timestamps
equal to the call instant (the literal stamps them after `...userData`), and
exactly that record is stored under its id. -/
theorem c10_create_timestamps_overridden (userData : Obj) (now : Nat)
    (st : StoreState) :
    JsMap.get (createUser userData now st).1 "createdAt" =
      some (JsValue.vNum now) ∧
    JsMap.get (createUser userData now st).1 "updatedAt" =
      some (JsValue.vNum now) ∧
    JsMap.get (createUser userData now st).2.users
        (getProp (createUser userData now st).1 "id") =
      some (createUser userData now st).1 := by
  refine ⟨createUser_get_createdAt userData now st,
    createUser_get_updatedAt userData now st, ?_⟩
  rw [createUser_users]
  exact JsMap.get_set_self _ _ _

end ApiJs
